import Mathlib

set_option maxRecDepth 8000

/-!
Shallow embedding of the cryptobot polling/formatting loop (two Go build
variants: a chart variant, `main.go`, and a text-only variant). Go
`float64` values are modelled as exact rationals `ℚ`; Go strings are
modelled as `List Char` (on valid strings, UTF-8 byte order agrees with
code-point order, so Go's byte-wise string sort is code-point
lexicographic here); Go panics are modelled with `Except`. Definitions
come first, then the theorems about them.
-/

namespace CryptoBot

/-- Go `math.Round`: nearest integer, halves rounded away from zero. -/
def goRound (x : ℚ) : ℤ :=
  if 0 ≤ x then ⌊x + 1 / 2⌋ else ⌈x - 1 / 2⌉

/-- `roundToPrecision(num, precision)` from the source:
`math.Round(num*factor) / factor` with `factor := math.Pow(10, precision)`. -/
def roundToPrecision (num : ℚ) (precision : ℕ) : ℚ :=
  let factor : ℚ := 10 ^ precision
  (goRound (num * factor) : ℚ) / factor

/-- Decimal digit characters of `n`, most significant first. -/
def natDigitChars (n : ℕ) : List Char :=
  ((Nat.digits 10 n).map Nat.digitChar).reverse

/-- Decimal rendering of a natural number (Go `%d` for a non-negative value). -/
def natChars (n : ℕ) : List Char :=
  if n = 0 then ['0'] else natDigitChars n

/-- Two-digit zero-padded decimal rendering, used for the fraction part of
`%.2f` (always called with `n < 100`). -/
def pad2 (n : ℕ) : List Char :=
  if n < 10 then '0' :: natChars n else natChars n

/-- Zero-padding to width `w`, as in Go time-layout fields. -/
def padZero (w : ℕ) (n : ℕ) : List Char :=
  List.replicate (w - (natChars n).length) '0' ++ natChars n

/-- Go `fmt.Sprintf("%.2f", x)` on the rational model: the value rounded to
two decimals (ties away from zero, as in `math.Round`; IEEE negative zero
has no counterpart in `ℚ` and is not modelled), printed with exactly two
fraction digits. -/
def fmt2 (x : ℚ) : List Char :=
  (if goRound (x * 100) < 0 then ['-'] else []) ++
    natChars ((goRound (x * 100)).natAbs / 100) ++
      '.' :: pad2 ((goRound (x * 100)).natAbs % 100)

/-- Numeric value of a big-endian string of decimal digit characters. -/
def digitsVal (l : List Char) : ℕ :=
  l.foldl (fun a c => a * 10 + (c.toNat - 48)) 0

/-- Exponent suffix of a decimal literal (`digits`, `+digits` or
`-digits`), as accepted after `e`/`E` by `strconv.ParseFloat`. -/
def parseExpPart (cs : List Char) : Option ℤ :=
  match cs with
  | '+' :: ds =>
    if ds ≠ [] ∧ ds.all Char.isDigit then some (digitsVal ds : ℤ) else none
  | '-' :: ds =>
    if ds ≠ [] ∧ ds.all Char.isDigit then some (-(digitsVal ds : ℤ)) else none
  | ds =>
    if ds ≠ [] ∧ ds.all Char.isDigit then some (digitsVal ds : ℤ) else none

/-- Unsigned part of `strconv.ParseFloat` on decimal literals
`digits[.digits][(e|E)[+-]digits]`, modelled exactly into `ℚ`. Go's
further forms — hex floats, `inf`/`nan`, digit-separating underscores —
are outside what this program writes or its spec describes and are not
modelled (they parse to `none` here). -/
def parseUnsigned (cs : List Char) : Option ℚ :=
  match cs.dropWhile Char.isDigit with
  | [] =>
    if cs.takeWhile Char.isDigit = [] then none
    else some (digitsVal (cs.takeWhile Char.isDigit) : ℚ)
  | '.' :: fp =>
    match fp.dropWhile Char.isDigit with
    | [] =>
      if cs.takeWhile Char.isDigit = [] ∧ fp.takeWhile Char.isDigit = [] then none
      else some ((digitsVal (cs.takeWhile Char.isDigit) : ℚ) +
        (digitsVal (fp.takeWhile Char.isDigit) : ℚ) /
          10 ^ (fp.takeWhile Char.isDigit).length)
    | e :: rest =>
      if e = 'e' ∨ e = 'E' then
        match parseExpPart rest with
        | some ex =>
          if cs.takeWhile Char.isDigit = [] ∧ fp.takeWhile Char.isDigit = [] then none
          else some (((digitsVal (cs.takeWhile Char.isDigit) : ℚ) +
            (digitsVal (fp.takeWhile Char.isDigit) : ℚ) /
              10 ^ (fp.takeWhile Char.isDigit).length) * 10 ^ ex)
        | none => none
      else none
  | e :: rest =>
    if e = 'e' ∨ e = 'E' then
      if cs.takeWhile Char.isDigit = [] then none
      else
        match parseExpPart rest with
        | some ex => some ((digitsVal (cs.takeWhile Char.isDigit) : ℚ) * 10 ^ ex)
        | none => none
    else none

/-- `strconv.ParseFloat` (the program calls it with bit size 10, which Go
treats as the 64-bit path) on plain decimal literals with optional sign. -/
def parseFloat (cs : List Char) : Option ℚ :=
  match cs with
  | '-' :: rest => (parseUnsigned rest).map (fun q => -q)
  | '+' :: rest => parseUnsigned rest
  | _ => parseUnsigned cs

/-- `buildPriceString(token, price, change1h, change24h, change7d)`:
header line `"%s: %.2f\n"`, one block per percentage with a green marker
when the change is `> 0` and a red one otherwise, and a closing `"\n"`. -/
def buildPriceString (token : List Char)
    (price change1h change24h change7d : ℚ) : List Char :=
  token ++ ": ".data ++ fmt2 (roundToPrecision price 2) ++ "\n".data ++
  (if change1h > 0 then
      "🟩 1h:\n".data ++ fmt2 (roundToPrecision change1h 2) ++ "%\n".data
    else
      "🟥 1h:\n".data ++ fmt2 (roundToPrecision change1h 2) ++ "%\n".data) ++
  (if change24h > 0 then
      "🟩 24h:\n".data ++ fmt2 (roundToPrecision change24h 2) ++ "%\n".data
    else
      "🟥 24h:\n".data ++ fmt2 (roundToPrecision change24h 2) ++ "%\n".data) ++
  (if change7d > 0 then
      "🟩 7d:\n".data ++ fmt2 (roundToPrecision change7d 2) ++ "%\n".data
    else
      "🟥 7d:\n".data ++ fmt2 (roundToPrecision change7d 2) ++ "%\n".data) ++
  "\n".data

/-- `Status` from the JSON envelope. -/
structure Status where
  timestamp : List Char
  errorCode : ℤ
  errorMessage : Option (List Char)
  elapsed : ℤ
  creditCount : ℤ
  notice : Option (List Char)
deriving DecidableEq

/-- `Quote` from the JSON envelope. -/
structure Quote where
  price : ℚ
  volume24h : ℚ
  volumeChange24h : ℚ
  percentChange1h : ℚ
  percentChange24h : ℚ
  percentChange7d : ℚ
  percentChange30d : ℚ
  percentChange60d : ℚ
  percentChange90d : ℚ
  marketCap : ℚ
  marketCapDominance : ℚ
  fullyDilutedMarketCap : ℚ
  tvl : Option (List Char)
  lastUpdated : List Char
deriving DecidableEq

/-- Zero value of `Quote`, returned by a Go map read on a missing key. -/
def zeroQuote : Quote :=
  ⟨0, 0, 0, 0, 0, 0, 0, 0, 0, 0, 0, 0, none, []⟩

/-- `CryptoData` from the JSON envelope; the `quote` map is an association
list in the map's (arbitrary) iteration order. -/
structure CryptoData where
  id : ℤ
  name : List Char
  symbol : List Char
  slug : List Char
  numMarketPairs : ℤ
  dateAdded : List Char
  tags : List (List Char)
  maxSupply : Option ℚ
  circulatingSupply : ℚ
  totalSupply : ℚ
  isActive : ℤ
  infiniteSupply : Bool
  platform : Option (List Char)
  cmcRank : ℤ
  isFiat : ℤ
  selfReportedCirculatingSupply : Option ℚ
  selfReportedMarketCap : Option ℚ
  tvlRatio : Option (List Char)
  lastUpdated : List Char
  quote : List (List Char × Quote)
deriving DecidableEq

/-- Zero value of `CryptoData`, returned by a Go map read on a missing key. -/
def zeroCryptoData : CryptoData :=
  ⟨0, [], [], [], 0, [], [], none, 0, 0, 0, false, none, 0, 0,
    none, none, none, [], []⟩

/-- The decoded API `Response`; `data` is an association list in the Go
map's (arbitrary) iteration order. -/
structure Response where
  status : Status
  data : List (List Char × CryptoData)
deriving DecidableEq

/-- Go map read `value.Quote[k]`: the zero value when the key is absent. -/
def quoteAt (q : List (List Char × Quote)) (k : List Char) : Quote :=
  (q.lookup k).getD zeroQuote

/-- Go map read `resData.Data[key]`: the zero value when the key is absent. -/
def dataAt (d : List (List Char × CryptoData)) (k : List Char) : CryptoData :=
  (d.lookup k).getD zeroCryptoData

/-- The `"USD"` quote key. -/
def usd : List Char := "USD".data

/-- Byte-wise string `≤`, the order `sort.Strings` sorts by (for valid
UTF-8, byte order coincides with this code-point lexicographic order). -/
def strLe : List Char → List Char → Bool
  | [], _ => true
  | _ :: _, [] => false
  | a :: as, b :: bs => if a < b then true else if b < a then false else strLe as bs

/-- The `strLe` order as a relation. -/
def keyLe (a b : List Char) : Prop := strLe a b = true

instance : DecidableRel keyLe :=
  fun a b => inferInstanceAs (Decidable (strLe a b = true))

/-- `sort.Strings(keys)`: ascending byte-wise sort (modelled by insertion
sort; `sort.Strings` computes the same ascending rearrangement of the
keys). -/
def sortStrings (l : List (List Char)) : List (List Char) :=
  l.insertionSort keyLe

/-- The per-asset text block the text variant appends for `key`:
`buildPriceString(value.Name, value.Quote["USD"].Price, …percent changes…)`. -/
def assetBlock (d : List (List Char × CryptoData)) (key : List Char) : List Char :=
  buildPriceString (dataAt d key).name (quoteAt (dataAt d key).quote usd).price
    (quoteAt (dataAt d key).quote usd).percentChange1h
    (quoteAt (dataAt d key).quote usd).percentChange24h
    (quoteAt (dataAt d key).quote usd).percentChange7d

/-- One cycle body of the text variant's `pollApi` after a successfully
decoded `Response`: collect the map's keys, sort them, and concatenate the
per-asset blocks; the result is the string handed to `bot.Send`. The
`status` field (including `errorCode`) is never consulted, and the cycle
body has no failure path after decoding. -/
def textCycleOutput (resData : Response) : List Char :=
  ((sortStrings (resData.data.map Prod.fst)).map (assetBlock resData.data)).flatten

/-- `strings.Split(s, "|")` on the char-list model of strings: split at
every separator occurrence, keeping (possibly empty) fields. -/
def splitChar (sep : Char) : List Char → List (List Char)
  | [] => [[]]
  | c :: rest =>
    match splitChar sep rest with
    | [] => [[]]
    | g :: gs => if c = sep then [] :: g :: gs else (c :: g) :: gs

/-- UTF-8 byte count of one written-back line, `line + "\n"`. -/
def lineBytes (line : List Char) : ℕ :=
  (line.map Char.utf8Size).sum + 1

/-- Total bytes the write-back loop hands to the `bufio.Writer`. -/
def writeBackBytes (contents : List (List Char)) : ℕ :=
  (contents.map lineBytes).sum

/-- The lines the default `bufio.Scanner` yields before the loop exits:
scanning stops silently at the first line whose token would overflow the
scanner's 64 KiB buffer (a line of `n` content bytes needs `n` buffered
bytes before its newline, so exactly the lines with `lineBytes ≤ 65536`
survive), and the code never checks `scanner.Err()`. -/
def scannedLines (file : List (List Char)) : List (List Char) :=
  file.takeWhile (fun line => lineBytes line ≤ 65536)

/-- The scanner loop of `fetchPoints`: keep a sliding window of the last
`maxLines` lines (`contents = contents[1:]` before each append once the
window is full). -/
def scanWindow (maxLines : ℕ) (lines : List (List Char)) : List (List Char) :=
  lines.foldl (fun contents line =>
    (if maxLines ≤ contents.length then contents.drop 1 else contents) ++ [line]) []

/-- A plotted point (`plotter.XY`). -/
structure Pt where
  x : ℚ
  y : ℚ
deriving DecidableEq

/-- The run-time panics `fetchPoints` can raise: the two per-line failures
(`data[1]` out of range, unparsable float) and the write-back failure
(`bufio` flush to the read-only handle fails once the buffer overflows). -/
inductive GoPanic where
  | indexOutOfRange
  | parseError
  | writeFailed
deriving DecidableEq

/-- Point for retained line `i`: `data := strings.Split(line, "|")`, then
`strconv.ParseFloat(data[1], 10)`; `data[1]` is an index-out-of-range
panic when the split has fewer than two fields, and an unparsable float
panics via the explicit `err` check. -/
def linePoint (i : ℕ) (line : List Char) : Except GoPanic Pt :=
  match splitChar '|' line with
  | _ :: field1 :: _ =>
    match parseFloat field1 with
    | some price => .ok ⟨(i : ℚ), price⟩
    | none => .error .parseError
  | _ => .error .indexOutOfRange

/-- Does a line survive `fetchPoints`' per-line processing? (`|`-split has
a second field that parses as a float.) Never inspects a `ℚ` value, so it
is kernel-decidable on concrete lines. -/
def wfLine (line : List Char) : Bool :=
  match splitChar '|' line with
  | _ :: field1 :: _ => (parseFloat field1).isSome
  | _ => false

/-- The parsed price of a well-formed line (`0` as a don't-care default). -/
def linePrice (line : List Char) : ℚ :=
  match splitChar '|' line with
  | _ :: field1 :: _ => (parseFloat field1).getD 0
  | _ => 0

/-- The point-building loop of `fetchPoints` over the retained lines,
starting at index `i`; stops at the first panicking line. -/
def mkPts (i : ℕ) : List (List Char) → Except GoPanic (List Pt)
  | [] => .ok []
  | line :: rest => do
    let p ← linePoint i line
    let ps ← mkPts (i + 1) rest
    .ok (p :: ps)

/-- Specification of `mkPts` on panic-free input. -/
def ptsOf (i : ℕ) : List (List Char) → List Pt
  | [] => []
  | line :: rest => ⟨(i : ℚ), linePrice line⟩ :: ptsOf (i + 1) rest

/-- `fetchPoints` (the spec's `readSeries`): scan the history file (the
default `bufio.Scanner` stops silently at a 64 KiB-plus line) keeping the
last 100 lines, build the plot points, then write the retained lines back
through `bufio.NewWriter(file)`. The handle was opened with `os.Open`
(read-only) and `Flush` is never called, so while the retained content
fits the writer's 4096-byte buffer nothing reaches the disk and the
on-disk lines are returned unchanged; once the retained content exceeds
the buffer, `WriteString`'s internal flush to the read-only handle fails
and the explicit `err` check panics (`writeFailed`) — the file is not
rewritten on any path. -/
def fetchPoints (file : List (List Char)) :
    Except GoPanic (List Pt × List (List Char)) :=
  (mkPts 0 (scanWindow 100 (scannedLines file))).bind (fun pts =>
    if writeBackBytes (scanWindow 100 (scannedLines file)) ≤ 4096 then
      .ok (pts, file)
    else .error .writeFailed)

/-- A wall-clock instant, to the granularity the layout string
`"2006-01-02 15:00:00"` can observe. -/
structure GoTime where
  year : ℕ
  month : ℕ
  day : ℕ
  hour : ℕ

/-- `t.Format("2006-01-02 15:00:00")`: zero-padded year, month, day and
hour; the minute and second positions are literal zeros in the layout. -/
def formatHour (t : GoTime) : List Char :=
  padZero 4 t.year ++ '-' :: padZero 2 t.month ++ '-' :: padZero 2 t.day ++
    ' ' :: padZero 2 t.hour ++ ":00:00".data

/-- The persisted files: name ↦ lines; `none` when the file is absent. -/
def FS : Type := List Char → Option (List (List Char))

/-- `fmt.Sprintf(".data.%s", key)`. -/
def dataFileName (key : List Char) : List Char := ".data.".data ++ key

/-- The history-append step of the chart variant's loop body (the spec's
`appendSample`): `os.OpenFile(fname, O_APPEND|O_WRONLY|O_CREATE, 0600)`
(created empty when absent) followed by one unbuffered
`f.WriteString(fmt.Sprintf("%s|%.2f\n", tFmt, price))`; since lines are
newline-terminated, this appends exactly one line. -/
def appendSample (fs : FS) (key : List Char) (t : GoTime) (price : ℚ) : FS :=
  fun name =>
    if name = dataFileName key then
      some ((fs (dataFileName key)).getD [] ++ [formatHour t ++ '|' :: fmt2 price])
    else fs name

/-- The chart variant's per-asset history step: `appendSample` on
`.data.<key>`, then `fetchPoints` on the same file. -/
def sampleAndRead (fs : FS) (key : List Char) (t : GoTime) (price : ℚ) :
    Except GoPanic (List Pt × List (List Char)) :=
  fetchPoints ((appendSample fs key t price (dataFileName key)).getD [])

/-- The poll-loop control skeleton shared by both variants. At each
iteration boundary the `select` polls `qChan` exactly once without
blocking (the `default` branch): a pending stop value makes the loop
return at once, running the deferred `wg.Done()` (the completion handle);
otherwise one full fetch-format-publish cycle runs, the loop sleeps, and
repeats. `signal i` says whether a stop value is pending at iteration
boundary `i`; `fuel` bounds the unrolling; the result is the list of
iteration indices whose cycles ran, paired with whether the loop returned
(releasing the handle) within `fuel` iterations. -/
def pollLoop (signal : ℕ → Bool) : ℕ → ℕ → List ℕ × Bool
  | 0, _ => ([], false)
  | fuel + 1, i =>
    if signal i then ([], true)
    else ((i :: (pollLoop signal fuel (i + 1)).1, (pollLoop signal fuel (i + 1)).2))

/-- A 105-line history file, each line `"a|1"`. -/
def c1File : List (List Char) := List.replicate 105 "a|1".data

/-- A 106-line history file (105 prior lines plus one appended), as after
one `appendSample` on a 105-line file. -/
def c2File : List (List Char) := List.replicate 106 "a|1".data

/-- An empty filesystem. -/
def fs0 : FS := fun _ => none

/-- The Ethereum asset key `"1027"`. -/
def k1027 : List Char := "1027".data

/-- A sample wall-clock instant (single-digit fields, zero-padded by the
layout). -/
def t0 : GoTime := ⟨7, 5, 6, 7⟩

/-- A filesystem holding one well-formed history line for asset `"1027"`. -/
def fs1 : FS := fun name =>
  if name = dataFileName k1027 then some ["a|1".data] else none

/-- A sample `Status` with a non-zero `errorCode` (and no data to go with it). -/
def stErr : Status := ⟨"2024-05-06T07:00:00Z".data, 1, some "rate limited".data, 3, 0, none⟩

/-- Asset entries keyed `"1027"`, `"5426"`, `"34625"`, in one iteration order. -/
def entriesA : List (List Char × CryptoData) :=
  [("1027".data, { zeroCryptoData with name := "Ethereum".data }),
   ("5426".data, { zeroCryptoData with name := "Solana".data }),
   ("34625".data, { zeroCryptoData with name := "Pip".data })]

/-- The same asset entries in another iteration order. -/
def entriesB : List (List Char × CryptoData) :=
  [("34625".data, { zeroCryptoData with name := "Pip".data }),
   ("1027".data, { zeroCryptoData with name := "Ethereum".data }),
   ("5426".data, { zeroCryptoData with name := "Solana".data })]

/-- A well-formed 52-character history line (50 junk characters, `"|"`,
price `1`): 53 bytes once its newline is counted. -/
def bigLine : List Char := List.replicate 50 'a' ++ "|1".data

/-- 100 well-formed lines of 53 bytes each: 5300 bytes retained, past the
4096-byte `bufio.Writer` buffer. -/
def bigFile : List (List Char) := List.replicate 100 bigLine

/-- A filesystem holding `bigFile` as the history of asset `"1027"`. -/
def fsBig : FS := fun name =>
  if name = dataFileName k1027 then some bigFile else none

/-- A stop signal that becomes (and stays) pending from iteration 3 on. -/
def sig3 : ℕ → Bool := fun j => decide (3 ≤ j)

/-! ## Theorems -/

theorem roundToPrecision_def (num : ℚ) (precision : ℕ) :
    roundToPrecision num precision = (goRound (num * 10 ^ precision) : ℚ) / 10 ^ precision :=
  rfl

theorem goRound_near (x : ℚ) : |(goRound x : ℚ) - x| ≤ 1 / 2 := by
  unfold goRound
  split
  · rw [abs_le]
    constructor
    · have h := Int.sub_one_lt_floor (x + 1 / 2)
      push_cast at h ⊢
      linarith
    · have h := Int.floor_le (x + 1 / 2)
      push_cast at h ⊢
      linarith
  · rw [abs_le]
    constructor
    · have h := Int.le_ceil (x - 1 / 2)
      push_cast at h ⊢
      linarith
    · have h := Int.ceil_lt_add_one (x - 1 / 2)
      push_cast at h ⊢
      linarith

theorem goRound_nearest (x : ℚ) (k : ℤ) :
    |(goRound x : ℚ) - x| ≤ |(k : ℚ) - x| := by
  rcases eq_or_ne k (goRound x) with h | h
  · rw [h]
  · have h1 : (1 : ℚ) ≤ |(k : ℚ) - (goRound x : ℚ)| := by
      rw [← Int.cast_sub, ← Int.cast_abs]
      exact_mod_cast Int.one_le_abs (sub_ne_zero_of_ne h)
    have h2 := goRound_near x
    have h3 : |(k : ℚ) - (goRound x : ℚ)| ≤ |(k : ℚ) - x| + |(goRound x : ℚ) - x| := by
      calc |(k : ℚ) - (goRound x : ℚ)|
          = |((k : ℚ) - x) + (x - (goRound x : ℚ))| := by ring_nf
        _ ≤ |(k : ℚ) - x| + |x - (goRound x : ℚ)| := abs_add _ _
        _ = |(k : ℚ) - x| + |(goRound x : ℚ) - x| := by rw [abs_sub_comm x]
    linarith

theorem goRound_tie (m : ℤ) :
    goRound ((m : ℚ) + 1 / 2) = if 0 ≤ m then m + 1 else m := by
  unfold goRound
  rcases le_or_lt 0 m with hm | hm
  · rw [if_pos (by positivity), if_pos hm]
    have : (m : ℚ) + 1 / 2 + 1 / 2 = ((m + 1 : ℤ) : ℚ) := by push_cast; ring
    rw [this, Int.floor_intCast]
  · rw [if_neg, if_neg (not_le.mpr hm)]
    · have : (m : ℚ) + 1 / 2 - 1 / 2 = ((m : ℤ) : ℚ) := by ring
      rw [this, Int.ceil_intCast]
    · push_neg
      have hm1 : m ≤ -1 := by omega
      have : (m : ℚ) ≤ -1 := by exact_mod_cast hm1
      linarith

theorem roundToPrecision_near (x : ℚ) :
    |roundToPrecision x 2 - x| ≤ 5 / 1000 := by
  have h := goRound_near (x * 100)
  rw [roundToPrecision_def]
  rw [show ((10 : ℚ) ^ 2) = 100 from by norm_num]
  rw [div_sub' _ _ _ (by norm_num : (100 : ℚ) ≠ 0), abs_div]
  rw [abs_of_pos (by norm_num : (0 : ℚ) < 100)]
  rw [div_le_iff₀ (by norm_num : (0 : ℚ) < 100)]
  calc |(goRound (x * 100) : ℚ) - 100 * x|
      = |(goRound (x * 100) : ℚ) - x * 100| := by ring_nf
    _ ≤ 1 / 2 := h
    _ ≤ 5 / 1000 * 100 := by norm_num

/-- C5: `roundToPrecision(p, 2)` rounds `p` to the nearest multiple of
`0.01` via `math.Round(p*100)/100`, with ties rounded away from zero, so
`|result - p| ≤ 0.005`; in particular on `1234.567` it yields `1234.57`.
(`float64` is modelled as exact rational arithmetic.) -/
theorem c5_roundToPrecision_correct :
    (∀ p : ℚ, roundToPrecision p 2 = (goRound (p * 100) : ℚ) / 100) ∧
    (∀ p : ℚ, ∀ k : ℤ, |roundToPrecision p 2 - p| ≤ |(k : ℚ) / 100 - p|) ∧
    (∀ m : ℤ, roundToPrecision ((2 * m + 1) / 200) 2 =
      if 0 ≤ m then ((m : ℚ) + 1) / 100 else (m : ℚ) / 100) ∧
    (∀ p : ℚ, |roundToPrecision p 2 - p| ≤ 5 / 1000) ∧
    roundToPrecision (1234567 / 1000) 2 = 123457 / 100 := by
  refine ⟨fun p => by rw [roundToPrecision_def]; norm_num, fun p k => ?_, fun m => ?_, roundToPrecision_near, ?_⟩
  · have h := goRound_nearest (p * 100) k
    rw [roundToPrecision_def]
    rw [show ((10 : ℚ) ^ 2) = 100 from by norm_num,
      div_sub' _ _ _ (by norm_num : (100 : ℚ) ≠ 0),
      div_sub' _ _ _ (by norm_num : (100 : ℚ) ≠ 0), abs_div, abs_div,
      abs_of_pos (by norm_num : (0 : ℚ) < 100)]
    apply div_le_div_of_nonneg_right ?_ (by norm_num)
    calc |(goRound (p * 100) : ℚ) - 100 * p|
        = |(goRound (p * 100) : ℚ) - p * 100| := by ring_nf
      _ ≤ |(k : ℚ) - p * 100| := goRound_nearest _ k
      _ = |(k : ℚ) - 100 * p| := by ring_nf
  · have harg : ((2 * (m : ℚ) + 1)) / 200 * 10 ^ 2 = (m : ℚ) + 1 / 2 := by
      ring
    rw [roundToPrecision_def, harg, goRound_tie]
    split
    · push_cast
      ring
    · norm_num
  · unfold roundToPrecision goRound
    norm_num

/-! ### Digit rendering and parsing -/

theorem digitChar_toNat {d : ℕ} (h : d < 10) : (Nat.digitChar d).toNat - 48 = d := by
  interval_cases d <;> rfl

theorem digitChar_isDigit {d : ℕ} (h : d < 10) : (Nat.digitChar d).isDigit = true := by
  interval_cases d <;> rfl

theorem foldl_digitChars (l : List ℕ) (h : ∀ d ∈ l, d < 10) (i : ℕ) :
    List.foldl (fun a c => a * 10 + (c.toNat - 48)) i ((l.map Nat.digitChar).reverse) =
      i * 10 ^ l.length + Nat.ofDigits 10 l := by
  induction l generalizing i with
  | nil => simp
  | cons d ds ih =>
    have hd : d < 10 := h d (List.mem_cons_self d ds)
    have hds : ∀ x ∈ ds, x < 10 := fun x hx => h x (List.mem_cons_of_mem d hx)
    rw [List.map_cons, List.reverse_cons, List.foldl_append, ih hds i]
    simp only [List.foldl_cons, List.foldl_nil]
    rw [digitChar_toNat hd, Nat.ofDigits_cons, List.length_cons, pow_succ]
    ring

theorem digitsVal_natDigitChars (n : ℕ) : digitsVal (natDigitChars n) = n := by
  unfold digitsVal natDigitChars
  rw [foldl_digitChars _ (fun d hd => Nat.digits_lt_base (by norm_num) hd) 0]
  simp [Nat.ofDigits_digits]

theorem digitsVal_natChars (n : ℕ) : digitsVal (natChars n) = n := by
  unfold natChars
  split
  · next h => rw [h]; rfl
  · exact digitsVal_natDigitChars n

theorem digitsVal_pad2 (n : ℕ) : digitsVal (pad2 n) = n := by
  unfold pad2
  split
  · show digitsVal ('0' :: natChars n) = n
    have h0 : digitsVal ('0' :: natChars n) = digitsVal (natChars n) := rfl
    rw [h0, digitsVal_natChars]
  · exact digitsVal_natChars n

theorem mem_natDigitChars_isDigit {c : Char} {n : ℕ} (h : c ∈ natDigitChars n) :
    c.isDigit = true := by
  unfold natDigitChars at h
  rw [List.mem_reverse, List.mem_map] at h
  obtain ⟨d, hd, rfl⟩ := h
  exact digitChar_isDigit (Nat.digits_lt_base (by norm_num) hd)

theorem mem_natChars_isDigit {c : Char} {n : ℕ} (h : c ∈ natChars n) :
    c.isDigit = true := by
  unfold natChars at h
  split at h
  · rw [List.mem_singleton] at h
    rw [h]
    rfl
  · exact mem_natDigitChars_isDigit h

theorem mem_pad2_isDigit {c : Char} {n : ℕ} (h : c ∈ pad2 n) : c.isDigit = true := by
  unfold pad2 at h
  split at h
  · rcases List.mem_cons.mp h with h | h
    · rw [h]
      rfl
    · exact mem_natChars_isDigit h
  · exact mem_natChars_isDigit h

theorem natChars_ne_nil (n : ℕ) : natChars n ≠ [] := by
  unfold natChars
  split
  · simp
  · next h =>
    unfold natDigitChars
    simp [Nat.digits_ne_nil_iff_ne_zero, h]

theorem natChars_length_of_lt_ten {n : ℕ} (h : n < 10) : (natChars n).length = 1 := by
  unfold natChars
  split
  · rfl
  · next h0 =>
    unfold natDigitChars
    have hlog : Nat.log 10 n = 0 :=
      Nat.log_eq_of_pow_le_of_lt_pow (by simp; omega) (by simpa using h)
    rw [List.length_reverse, List.length_map,
      Nat.digits_len 10 n (by norm_num) h0, hlog]

theorem pad2_length {n : ℕ} (h : n < 100) : (pad2 n).length = 2 := by
  unfold pad2
  split
  · next h10 => rw [List.length_cons, natChars_length_of_lt_ten h10]
  · next h10 =>
    push_neg at h10
    unfold natChars
    rw [if_neg (by omega)]
    unfold natDigitChars
    have hlog : Nat.log 10 n = 1 :=
      Nat.log_eq_of_pow_le_of_lt_pow (by simpa using h10) (by simpa using h)
    rw [List.length_reverse, List.length_map,
      Nat.digits_len 10 n (by norm_num) (by omega), hlog]

theorem span_digits_dot (a b : List Char) (ha : ∀ c ∈ a, c.isDigit = true) :
    (a ++ '.' :: b).takeWhile Char.isDigit = a ∧
      (a ++ '.' :: b).dropWhile Char.isDigit = '.' :: b := by
  induction a with
  | nil =>
    constructor <;>
      simp [List.takeWhile_cons, List.dropWhile_cons,
        show Char.isDigit '.' = false from rfl]
  | cons c cs ih =>
    have hc : c.isDigit = true := ha c (List.mem_cons_self c cs)
    obtain ⟨h1, h2⟩ := ih (fun x hx => ha x (List.mem_cons_of_mem c hx))
    constructor
    · simp [List.takeWhile_cons, hc, h1]
    · simp [List.dropWhile_cons, hc, h2]

theorem span_digits_all (a : List Char) (ha : ∀ c ∈ a, c.isDigit = true) :
    a.takeWhile Char.isDigit = a ∧ a.dropWhile Char.isDigit = [] := by
  induction a with
  | nil => exact ⟨rfl, rfl⟩
  | cons c cs ih =>
    have hc := ha c (List.mem_cons_self c cs)
    obtain ⟨h1, h2⟩ := ih (fun x hx => ha x (List.mem_cons_of_mem c hx))
    exact ⟨by simp [List.takeWhile_cons, hc, h1], by simp [List.dropWhile_cons, hc, h2]⟩

theorem parseUnsigned_decimal (a b : List Char) (ha : ∀ c ∈ a, c.isDigit = true)
    (hb : ∀ c ∈ b, c.isDigit = true) (hane : a ≠ []) :
    parseUnsigned (a ++ '.' :: b) =
      some ((digitsVal a : ℚ) + (digitsVal b : ℚ) / 10 ^ b.length) := by
  obtain ⟨h1, h2⟩ := span_digits_dot a b ha
  obtain ⟨hb1, hb2⟩ := span_digits_all b hb
  unfold parseUnsigned
  simp only [h1, h2, hb1, hb2]
  rw [if_neg (fun hctr => hane hctr.1)]

theorem parseUnsigned_digits (a : List Char) (ha : ∀ c ∈ a, c.isDigit = true)
    (hane : a ≠ []) : parseUnsigned a = some (digitsVal a : ℚ) := by
  obtain ⟨h1, h2⟩ := span_digits_all a ha
  unfold parseUnsigned
  simp only [h1, h2]
  rw [if_neg hane]

theorem parseFloat_of_head_digit {c : Char} (l : List Char) (h : c.isDigit = true) :
    parseFloat (c :: l) = parseUnsigned (c :: l) := by
  have h1 : c ≠ '-' := by rintro rfl; exact absurd h (by decide)
  have h2 : c ≠ '+' := by rintro rfl; exact absurd h (by decide)
  unfold parseFloat
  split
  · next heq =>
    injection heq with hc _
    exact absurd hc h1
  · next heq =>
    injection heq with hc _
    exact absurd hc h2
  · rfl

/-! ### `%.2f` formatting round-trips through `ParseFloat` -/

theorem natAbs_cast_of_nonneg {r : ℤ} (h : 0 ≤ r) : ((r.natAbs : ℕ) : ℚ) = (r : ℚ) := by
  rw [Int.cast_natAbs, abs_of_nonneg h]

theorem natAbs_cast_of_neg {r : ℤ} (h : r < 0) : ((r.natAbs : ℕ) : ℚ) = -(r : ℚ) := by
  rw [Int.cast_natAbs, abs_of_neg h, Int.cast_neg]

theorem parseUnsigned_fmt2_core (n : ℕ) :
    parseUnsigned (natChars (n / 100) ++ '.' :: pad2 (n % 100)) = some ((n : ℚ) / 100) := by
  have hmod : n % 100 < 100 := Nat.mod_lt _ (by norm_num)
  rw [parseUnsigned_decimal _ _ (fun c hc => mem_natChars_isDigit hc)
      (fun c hc => mem_pad2_isDigit hc) (natChars_ne_nil _)]
  rw [digitsVal_natChars, digitsVal_pad2, pad2_length hmod]
  congr 1
  have h1 : 100 * (n / 100) + n % 100 = n := Nat.div_add_mod n 100
  have h2 : (100 : ℚ) * ((n / 100 : ℕ) : ℚ) + ((n % 100 : ℕ) : ℚ) = (n : ℚ) := by
    exact_mod_cast h1
  have h3 : ((10 : ℚ) ^ 2) = 100 := by norm_num
  rw [h3]
  field_simp
  linarith

theorem parseFloat_fmt2 (x : ℚ) : parseFloat (fmt2 x) = some (roundToPrecision x 2) := by
  rw [roundToPrecision_def, show ((10 : ℚ) ^ 2) = 100 from by norm_num]
  unfold fmt2
  by_cases hneg : goRound (x * 100) < 0
  · rw [if_pos hneg]
    have hstep : parseFloat (['-'] ++ natChars ((goRound (x * 100)).natAbs / 100) ++
        '.' :: pad2 ((goRound (x * 100)).natAbs % 100)) =
        (parseUnsigned (natChars ((goRound (x * 100)).natAbs / 100) ++
          '.' :: pad2 ((goRound (x * 100)).natAbs % 100))).map (fun q => -q) := rfl
    rw [hstep, parseUnsigned_fmt2_core, Option.map_some']
    rw [natAbs_cast_of_neg hneg]
    congr 1
    ring
  · rw [if_neg hneg, List.nil_append]
    rcases hA : natChars ((goRound (x * 100)).natAbs / 100) with _ | ⟨c, cs⟩
    · exact absurd hA (natChars_ne_nil _)
    · have hc : c.isDigit = true :=
        mem_natChars_isDigit (hA ▸ List.mem_cons_self c cs)
      rw [List.cons_append, parseFloat_of_head_digit _ hc, ← List.cons_append, ← hA,
        parseUnsigned_fmt2_core, natAbs_cast_of_nonneg (not_lt.mp hneg)]

/-! ### Characters that can appear in rendered fields -/

theorem bar_not_mem_natChars (n : ℕ) : '|' ∉ natChars n := by
  intro h
  exact absurd (mem_natChars_isDigit h) (by decide)

theorem bar_not_mem_pad2 (n : ℕ) : '|' ∉ pad2 n := by
  intro h
  exact absurd (mem_pad2_isDigit h) (by decide)

theorem bar_not_mem_fmt2 (x : ℚ) : '|' ∉ fmt2 x := by
  unfold fmt2
  intro hmem
  rcases List.mem_append.mp hmem with h | h
  · rcases List.mem_append.mp h with h | h
    · split at h
      · exact absurd h (by decide)
      · exact absurd h (by decide)
    · exact bar_not_mem_natChars _ h
  · rcases List.mem_cons.mp h with h | h
    · exact absurd h (by decide)
    · exact bar_not_mem_pad2 _ h

theorem bar_not_mem_padZero (w n : ℕ) : '|' ∉ padZero w n := by
  unfold padZero
  intro h
  rcases List.mem_append.mp h with h | h
  · exact absurd (List.eq_of_mem_replicate h) (by decide)
  · exact bar_not_mem_natChars _ h

theorem bar_not_mem_formatHour (t : GoTime) : '|' ∉ formatHour t := by
  unfold formatHour
  intro h
  rcases List.mem_append.mp h with h | h
  · rcases List.mem_append.mp h with h | h
    · rcases List.mem_append.mp h with h | h
      · rcases List.mem_append.mp h with h | h
        · exact bar_not_mem_padZero _ _ h
        · rcases List.mem_cons.mp h with h | h
          · exact absurd h (by decide)
          · exact bar_not_mem_padZero _ _ h
      · rcases List.mem_cons.mp h with h | h
        · exact absurd h (by decide)
        · exact bar_not_mem_padZero _ _ h
    · rcases List.mem_cons.mp h with h | h
      · exact absurd h (by decide)
      · exact bar_not_mem_padZero _ _ h
  · exact absurd h (by decide)

/-! ### `strings.Split` on `"|"` -/

theorem splitChar_ne_nil (sep : Char) (l : List Char) : splitChar sep l ≠ [] := by
  induction l with
  | nil => simp [splitChar]
  | cons c rest ih =>
    show (match splitChar sep rest with
      | [] => [[]]
      | g :: gs => if c = sep then [] :: g :: gs else (c :: g) :: gs) ≠ []
    rcases h : splitChar sep rest with _ | ⟨g, gs⟩
    · simp
    · by_cases hcs : c = sep <;> simp [hcs]

theorem splitChar_cons (sep c : Char) (rest : List Char) :
    splitChar sep (c :: rest) =
      if c = sep then [] :: splitChar sep rest
      else (c :: (splitChar sep rest).headI) :: (splitChar sep rest).tail := by
  show (match splitChar sep rest with
    | [] => [[]]
    | g :: gs => if c = sep then [] :: g :: gs else (c :: g) :: gs) = _
  rcases h : splitChar sep rest with _ | ⟨g, gs⟩
  · exact absurd h (splitChar_ne_nil sep rest)
  · by_cases hcs : c = sep <;> simp [hcs]

theorem splitChar_no_sep {sep : Char} {l : List Char} (h : sep ∉ l) :
    splitChar sep l = [l] := by
  induction l with
  | nil => rfl
  | cons c rest ih =>
    have hc : c ≠ sep := fun hc => h (hc ▸ List.mem_cons_self c rest)
    have hrest : sep ∉ rest := fun hr => h (List.mem_cons_of_mem c hr)
    rw [splitChar_cons, ih hrest]
    simp [hc]

theorem splitChar_append {sep : Char} {a : List Char} (b : List Char) (ha : sep ∉ a) :
    splitChar sep (a ++ sep :: b) = a :: splitChar sep b := by
  induction a with
  | nil =>
    rw [List.nil_append, splitChar_cons]
    simp
  | cons c cs ih =>
    have hc : c ≠ sep := fun hc => ha (hc ▸ List.mem_cons_self c cs)
    have hcs : sep ∉ cs := fun hr => ha (List.mem_cons_of_mem c hr)
    rw [List.cons_append, splitChar_cons, ih hcs]
    simp [hc]

theorem splitChar_data_line {a b : List Char} (ha : '|' ∉ a) (hb : '|' ∉ b) :
    splitChar '|' (a ++ '|' :: b) = [a, b] := by
  rw [splitChar_append b ha, splitChar_no_sep hb]

/-! ### Per-line processing of the history file -/

theorem linePoint_of_wf (i : ℕ) {l : List Char} (h : wfLine l = true) :
    linePoint i l = .ok ⟨(i : ℚ), linePrice l⟩ := by
  unfold wfLine at h
  unfold linePoint linePrice
  rcases hs : splitChar '|' l with _ | ⟨f0, fs⟩
  · rw [hs] at h
    simp at h
  · rcases fs with _ | ⟨f1, rest⟩
    · rw [hs] at h
      simp at h
    · rw [hs] at h
      dsimp only at h ⊢
      rcases ho : parseFloat f1 with _ | q
      · rw [ho] at h
        simp at h
      · simp

theorem wfLine_data_line {a b : List Char} (ha : '|' ∉ a) (hb : '|' ∉ b)
    {q : ℚ} (hq : parseFloat b = some q) : wfLine (a ++ '|' :: b) = true := by
  unfold wfLine
  rw [splitChar_data_line ha hb]
  simp [hq]

theorem linePrice_data_line {a b : List Char} (ha : '|' ∉ a) (hb : '|' ∉ b)
    {q : ℚ} (hq : parseFloat b = some q) : linePrice (a ++ '|' :: b) = q := by
  unfold linePrice
  rw [splitChar_data_line ha hb]
  simp [hq]

theorem mkPts_ok (i : ℕ) (lines : List (List Char))
    (h : ∀ l ∈ lines, wfLine l = true) : mkPts i lines = .ok (ptsOf i lines) := by
  induction lines generalizing i with
  | nil => rfl
  | cons l rest ih =>
    have hl := h l (List.mem_cons_self l rest)
    have hrest := fun x hx => h x (List.mem_cons_of_mem l hx)
    unfold mkPts ptsOf
    rw [linePoint_of_wf i hl, ih (i + 1) hrest]
    rfl

theorem ptsOf_length (i : ℕ) (lines : List (List Char)) :
    (ptsOf i lines).length = lines.length := by
  induction lines generalizing i with
  | nil => rfl
  | cons l rest ih => simp [ptsOf, ih]

theorem ptsOf_map_y (i : ℕ) (lines : List (List Char)) :
    (ptsOf i lines).map Pt.y = lines.map linePrice := by
  induction lines generalizing i with
  | nil => rfl
  | cons l rest ih => simp [ptsOf, ih]

theorem ptsOf_getElem? (i j : ℕ) (lines : List (List Char)) :
    (ptsOf i lines)[j]? =
      (lines[j]?).map (fun l => ⟨((i + j : ℕ) : ℚ), linePrice l⟩) := by
  induction lines generalizing i j with
  | nil => simp [ptsOf]
  | cons l rest ih =>
    cases j with
    | zero => simp [ptsOf]
    | succ j' =>
      have hshift : (i + 1) + j' = i + (j' + 1) := by omega
      simp only [ptsOf, List.getElem?_cons_succ]
      rw [ih (i + 1) j', hshift]

/-! ### The scanner window keeps the last 100 lines -/

theorem scanWindow_foldl (m : ℕ) (hm : 1 ≤ m) (l : List (List Char)) :
    ∀ acc : List (List Char), acc.length ≤ m →
      List.foldl (fun contents line =>
        (if m ≤ contents.length then contents.drop 1 else contents) ++ [line]) acc l =
      (acc ++ l).drop (acc.length + l.length - m) := by
  induction l with
  | nil =>
    intro acc hacc
    simp [Nat.sub_eq_zero_of_le hacc]
  | cons x xs ih =>
    intro acc hacc
    rw [List.foldl_cons]
    by_cases hfull : m ≤ acc.length
    · have hlen : acc.length = m := le_antisymm hacc hfull
      rw [if_pos hfull, ih _ (by simp; omega)]
      have h1 : ((acc.drop 1 ++ [x]).length + xs.length - m) = xs.length := by
        simp
        omega
      have h2 : (acc.length + (x :: xs).length - m) = xs.length + 1 := by
        simp [hlen]
      rw [h1, h2]
      have h3 : (acc ++ x :: xs).drop (xs.length + 1) =
          ((acc ++ x :: xs).drop 1).drop xs.length := by
        rw [List.drop_drop]
        congr 1
        omega
      have h4 : (acc ++ x :: xs).drop 1 = acc.drop 1 ++ x :: xs :=
        List.drop_append_of_le_length (by omega)
      rw [h3, h4, List.append_assoc, List.singleton_append]
    · push_neg at hfull
      rw [if_neg (not_le.mpr hfull), ih _ (by simp; omega)]
      rw [List.append_assoc, List.singleton_append]
      congr 1
      simp
      omega

theorem scanWindow_eq_drop (l : List (List Char)) :
    scanWindow 100 l = l.drop (l.length - 100) := by
  unfold scanWindow
  rw [scanWindow_foldl 100 (by norm_num) l [] (by simp)]
  simp

/-! ### Byte accounting for the scanner and the write-back buffer -/

theorem lineBytes_le (l : List Char) : lineBytes l ≤ 4 * l.length + 1 := by
  unfold lineBytes
  have h : (l.map Char.utf8Size).sum ≤ 4 * l.length := by
    induction l with
    | nil => simp
    | cons c cs ih =>
      simp only [List.map_cons, List.sum_cons, List.length_cons]
      have := Char.utf8Size_le_four c
      omega
  omega

theorem writeBackBytes_append (a b : List (List Char)) :
    writeBackBytes (a ++ b) = writeBackBytes a + writeBackBytes b := by
  unfold writeBackBytes
  rw [List.map_append, List.sum_append]

theorem lineBytes_le_writeBackBytes {l : List Char} {contents : List (List Char)}
    (h : l ∈ contents) : lineBytes l ≤ writeBackBytes contents := by
  unfold writeBackBytes
  exact List.single_le_sum (fun x _ => Nat.zero_le x) _ (List.mem_map_of_mem lineBytes h)

theorem scannedLines_of_all {file : List (List Char)}
    (h : ∀ l ∈ file, lineBytes l ≤ 65536) : scannedLines file = file :=
  List.takeWhile_eq_self_iff.mpr (fun x hx => decide_eq_true (h x hx))

theorem exceptBind_ok {ε α β : Type} (a : α) (f : α → Except ε β) :
    (Except.ok a : Except ε α).bind f = f a := rfl

theorem padZero_length_of_lt_ten {n : ℕ} (w : ℕ) (hn : n < 10) (hw : 1 ≤ w) :
    (padZero w n).length = w := by
  unfold padZero
  rw [List.length_append, List.length_replicate, natChars_length_of_lt_ten hn]
  omega

theorem formatHour_length_small (t : GoTime) (h1 : t.year < 10) (h2 : t.month < 10)
    (h3 : t.day < 10) (h4 : t.hour < 10) : (formatHour t).length = 19 := by
  unfold formatHour
  simp only [List.length_append, List.length_cons]
  rw [padZero_length_of_lt_ten 4 h1 (by norm_num), padZero_length_of_lt_ten 2 h2 (by norm_num),
    padZero_length_of_lt_ten 2 h3 (by norm_num), padZero_length_of_lt_ten 2 h4 (by norm_num)]
  rfl

theorem fmt2_length_le {p : ℚ} (h : (goRound (p * 100)).natAbs < 1000) :
    (fmt2 p).length ≤ 5 := by
  unfold fmt2
  have hmod : (goRound (p * 100)).natAbs % 100 < 100 := Nat.mod_lt _ (by norm_num)
  have hdiv : (goRound (p * 100)).natAbs / 100 < 10 := by omega
  rw [List.length_append, List.length_append, List.length_cons,
    natChars_length_of_lt_ten hdiv, pad2_length hmod]
  split <;> simp

/-! ### Claims about the chart variant's history store -/

/-- C1 (the spec's pruning promise, which the code does not keep):
`readSeries`/`fetchPoints` on a 105-line history file is supposed to
rewrite the file down to its last 100 lines, but the call returns with the
on-disk file unchanged at 105 lines — the handle is read-only and the
buffered writer is never flushed — so the persisted file does NOT hold at
most 100 entries after the cycle's read. -/
theorem c1_file_not_pruned :
    (fetchPoints c1File).map Prod.snd = Except.ok c1File ∧
    c1File.length = 105 ∧ ¬ c1File.length ≤ 100 :=
  ⟨rfl, rfl, by decide⟩

/-- C2 (corrected: the claim as stated fails once the retained lines
overflow the write-back buffer — see the counterexample): on a history
file whose lines are well-formed decimal records, each under the
scanner's 64 KiB line limit, and whose last `min n 100` lines total at
most 4096 written-back bytes, `fetchPoints` returns the series built from
the last `min n 100` lines in file order, where point `j` has `X = j`
(its 0-based index after trimming) and `Y` the price parsed from that
line. -/
theorem c2_readSeries_points (file : List (List Char))
    (hwf : ∀ l ∈ file, wfLine l = true)
    (hscan : ∀ l ∈ file, lineBytes l ≤ 65536)
    (hbuf : writeBackBytes (file.drop (file.length - 100)) ≤ 4096) :
    fetchPoints file = .ok (ptsOf 0 (file.drop (file.length - 100)), file) ∧
    (ptsOf 0 (file.drop (file.length - 100))).length = min file.length 100 ∧
    ∀ j : ℕ, (ptsOf 0 (file.drop (file.length - 100)))[j]? =
      ((file.drop (file.length - 100))[j]?).map (fun l => ⟨(j : ℚ), linePrice l⟩) := by
  have hsub : ∀ l ∈ file.drop (file.length - 100), wfLine l = true :=
    fun l hl => hwf l (List.drop_subset _ _ hl)
  refine ⟨?_, ?_, ?_⟩
  · unfold fetchPoints
    rw [scannedLines_of_all hscan, scanWindow_eq_drop, mkPts_ok 0 _ hsub]
    simp only [exceptBind_ok]
    rw [if_pos hbuf]
  · rw [ptsOf_length, List.length_drop]
    omega
  · intro j
    simpa using ptsOf_getElem? 0 j (file.drop (file.length - 100))

/-- Counterexample to C2 as literally stated: a history file of 100
well-formed 53-byte lines retains 5300 bytes, past the 4096-byte
`bufio.Writer` buffer, so the write-back flush to the read-only handle
fails and the program panics instead of returning a series of
`min(n, 100)` points. -/
theorem c2_readSeries_points_counterexample :
    (∀ l ∈ bigFile, wfLine l = true) ∧
    bigFile.length = 100 ∧
    fetchPoints bigFile = .error .writeFailed ∧
    ∀ res, fetchPoints bigFile ≠ .ok res := by
  have herr : fetchPoints bigFile = .error .writeFailed := rfl
  refine ⟨by decide, by decide, herr, fun res h => ?_⟩
  rw [herr] at h
  exact Except.noConfusion h

/-- Witness for C2 (amended) at the 106-line file left by one
`appendSample` on a 105-line history: exactly 100 points with indices
`0..99`. -/
theorem c2_readSeries_points_witness :
    ((∀ l ∈ c2File, wfLine l = true) ∧ (∀ l ∈ c2File, lineBytes l ≤ 65536) ∧
      writeBackBytes (c2File.drop (c2File.length - 100)) ≤ 4096) ∧
    (fetchPoints c2File = .ok (ptsOf 0 (c2File.drop (c2File.length - 100)), c2File) ∧
     (ptsOf 0 (c2File.drop (c2File.length - 100))).length = min c2File.length 100 ∧
     ∀ j : ℕ, (ptsOf 0 (c2File.drop (c2File.length - 100)))[j]? =
       ((c2File.drop (c2File.length - 100))[j]?).map (fun l => ⟨(j : ℚ), linePrice l⟩)) ∧
    min c2File.length 100 = 100 :=
  ⟨⟨by decide, by decide, by decide⟩,
    c2_readSeries_points c2File (by decide) (by decide) (by decide), by decide⟩

/-- C9: `fetchPoints` is total only when every retained line has a `"|"`;
on a line with no `"|"` at all the `data[1]` access is an
index-out-of-range panic (beyond the documented unparsable-float panic). -/
theorem c9_missing_separator_panic :
    '|' ∉ "hello".data ∧
    fetchPoints ["hello".data] = .error .indexOutOfRange :=
  ⟨by decide, rfl⟩

/-- C8: `appendSample` writes to `".data." ++ key`, creating the file when
absent, appending exactly the one line
`"<YYYY-MM-DD HH:00:00>|<price to 2 decimals>\n"` after the untouched
prior lines, and leaving every other file unchanged. -/
theorem c8_appendSample_contract (fs : FS) (key : List Char) (t : GoTime) (p : ℚ) :
    (∀ prior, fs (dataFileName key) = some prior →
      appendSample fs key t p (dataFileName key) =
        some (prior ++ [formatHour t ++ '|' :: fmt2 p])) ∧
    (fs (dataFileName key) = none →
      appendSample fs key t p (dataFileName key) =
        some [formatHour t ++ '|' :: fmt2 p]) ∧
    (∀ name, name ≠ dataFileName key → appendSample fs key t p name = fs name) ∧
    dataFileName key = ".data.".data ++ key ∧
    formatHour t = padZero 4 t.year ++ '-' :: padZero 2 t.month ++ '-' ::
      padZero 2 t.day ++ ' ' :: padZero 2 t.hour ++ ":00:00".data := by
  refine ⟨fun prior hp => ?_, fun hn => ?_, fun name hne => ?_, rfl, rfl⟩
  · unfold appendSample
    rw [if_pos rfl, hp]
    rfl
  · unfold appendSample
    rw [if_pos rfl, hn]
    rfl
  · unfold appendSample
    rw [if_neg hne]

/-- Witness for C8 on an empty filesystem and the `"1027"` asset key. -/
theorem c8_appendSample_contract_witness :
    fs0 (dataFileName k1027) = none ∧
    appendSample fs0 k1027 t0 3 (dataFileName k1027) =
      some [formatHour t0 ++ '|' :: fmt2 3] :=
  ⟨rfl, (c8_appendSample_contract fs0 k1027 t0 3).2.1 rfl⟩

/-- C10 (corrected: the claim as stated fails when the retained window
after the append overflows the write-back buffer — see the
counterexample): for a well-formed prior history file whose lines are
under the scanner's 64 KiB limit, and whose retained window after the
append fits the 4096-byte write-back buffer, `appendSample` followed by
`readSeries`/`fetchPoints` yields a non-empty series whose last point's
`Y` is exactly the parse of the price as formatted to two decimals (the
fresh sample is the last retained line, since trimming drops oldest
first). -/
theorem c10_appended_sample_is_last_point (fs : FS) (key : List Char)
    (t : GoTime) (p : ℚ)
    (hwf : ∀ l ∈ (fs (dataFileName key)).getD [], wfLine l = true)
    (hscan : ∀ l ∈ (fs (dataFileName key)).getD [], lineBytes l ≤ 65536)
    (hbuf : writeBackBytes
      (((fs (dataFileName key)).getD [] ++ [formatHour t ++ '|' :: fmt2 p]).drop
        (((fs (dataFileName key)).getD [] ++
          [formatHour t ++ '|' :: fmt2 p]).length - 100)) ≤ 4096) :
    ∃ pts after q,
      sampleAndRead fs key t p = .ok (pts, after) ∧
      pts ≠ [] ∧
      parseFloat (fmt2 p) = some q ∧
      (pts.getLast?).map Pt.y = some q := by
  have hq : parseFloat (fmt2 p) = some (roundToPrecision p 2) := parseFloat_fmt2 p
  have hLwf : wfLine (formatHour t ++ '|' :: fmt2 p) = true :=
    wfLine_data_line (bar_not_mem_formatHour t) (bar_not_mem_fmt2 p) hq
  have hfile : (appendSample fs key t p (dataFileName key)).getD [] =
      (fs (dataFileName key)).getD [] ++ [formatHour t ++ '|' :: fmt2 p] := by
    unfold appendSample
    rw [if_pos rfl]
    rfl
  have hwfall : ∀ l ∈ (fs (dataFileName key)).getD [] ++ [formatHour t ++ '|' :: fmt2 p],
      wfLine l = true := by
    intro l hl
    rcases List.mem_append.mp hl with h | h
    · exact hwf l h
    · rw [List.mem_singleton] at h
      rw [h]
      exact hLwf
  set prior := (fs (dataFileName key)).getD [] with hprior
  set L := formatHour t ++ '|' :: fmt2 p with hL
  have hdrop : (prior ++ [L]).drop ((prior ++ [L]).length - 100) =
      prior.drop ((prior ++ [L]).length - 100) ++ [L] :=
    List.drop_append_of_le_length (by simp)
  have hLbytes : lineBytes L ≤ 65536 := by
    have hmem : L ∈ (prior ++ [L]).drop ((prior ++ [L]).length - 100) := by
      rw [hdrop]
      exact List.mem_append_right _ (List.mem_singleton_self L)
    have := lineBytes_le_writeBackBytes hmem
    omega
  have hscanall : ∀ l ∈ prior ++ [L], lineBytes l ≤ 65536 := by
    intro l hl
    rcases List.mem_append.mp hl with h | h
    · exact hscan l h
    · rw [List.mem_singleton] at h
      rw [h]
      exact hLbytes
  refine ⟨ptsOf 0 ((prior ++ [L]).drop ((prior ++ [L]).length - 100)), prior ++ [L],
    roundToPrecision p 2, ?_, ?_, hq, ?_⟩
  · unfold sampleAndRead
    rw [hfile]
    unfold fetchPoints
    rw [scannedLines_of_all hscanall, scanWindow_eq_drop,
      mkPts_ok 0 _ (fun l hl => hwfall l (List.drop_subset _ _ hl))]
    simp only [exceptBind_ok]
    rw [if_pos hbuf]
  · intro hnil
    have hlen := congrArg List.length hnil
    rw [ptsOf_length, List.length_drop] at hlen
    simp at hlen
    omega
  · rw [← List.getLast?_map, ptsOf_map_y, hdrop, List.map_append]
    simp only [List.map_cons, List.map_nil]
    rw [List.getLast?_concat]
    rw [linePrice_data_line (bar_not_mem_formatHour t) (bar_not_mem_fmt2 p) hq]

/-- Counterexample to C10 as literally stated: with 100 well-formed
53-byte prior lines, the retained window after the append exceeds the
4096-byte buffer, the write-back flush fails, and the composition panics
with no series at all. -/
theorem c10_appended_sample_counterexample :
    (∀ l ∈ (fsBig (dataFileName k1027)).getD [], wfLine l = true) ∧
    sampleAndRead fsBig k1027 t0 3 = .error .writeFailed ∧
    ∀ res, sampleAndRead fsBig k1027 t0 3 ≠ .ok res := by
  have hq : parseFloat (fmt2 3) = some (roundToPrecision 3 2) := parseFloat_fmt2 3
  have hLwf : wfLine (formatHour t0 ++ '|' :: fmt2 3) = true :=
    wfLine_data_line (bar_not_mem_formatHour t0) (bar_not_mem_fmt2 3) hq
  have h300 : goRound ((3 : ℚ) * 100) = 300 := by norm_num [goRound]
  have hfmtlen : (fmt2 3).length ≤ 5 := fmt2_length_le (by rw [h300]; decide)
  have hfhlen : (formatHour t0).length = 19 :=
    formatHour_length_small t0 (by decide) (by decide) (by decide) (by decide)
  have hLbytes : lineBytes (formatHour t0 ++ '|' :: fmt2 3) ≤ 65536 := by
    have hle := lineBytes_le (formatHour t0 ++ '|' :: fmt2 3)
    rw [List.length_append, List.length_cons, hfhlen] at hle
    omega
  have hfile : (appendSample fsBig k1027 t0 3 (dataFileName k1027)).getD [] =
      bigFile ++ [formatHour t0 ++ '|' :: fmt2 3] := by
    unfold appendSample
    rw [if_pos rfl]
    rfl
  set L := formatHour t0 ++ '|' :: fmt2 3 with hL
  have hwfall : ∀ l ∈ bigFile ++ [L], wfLine l = true := by
    intro l hl
    rcases List.mem_append.mp hl with h | h
    · exact (by decide : ∀ l ∈ bigFile, wfLine l = true) l h
    · rw [List.mem_singleton] at h
      rw [h]
      exact hLwf
  have hscanall : ∀ l ∈ bigFile ++ [L], lineBytes l ≤ 65536 := by
    intro l hl
    rcases List.mem_append.mp hl with h | h
    · exact (by decide : ∀ l ∈ bigFile, lineBytes l ≤ 65536) l h
    · rw [List.mem_singleton] at h
      rw [h]
      exact hLbytes
  have hdrop : (bigFile ++ [L]).drop ((bigFile ++ [L]).length - 100) =
      bigFile.drop 1 ++ [L] := by
    have hlen : (bigFile ++ [L]).length - 100 = 1 := by decide
    rw [hlen]
    exact List.drop_append_of_le_length (by decide)
  have hwfret : ∀ l ∈ bigFile.drop 1 ++ [L], wfLine l = true := by
    intro l hl
    rcases List.mem_append.mp hl with h | h
    · exact hwfall l (List.mem_append_left _ (List.drop_subset _ _ h))
    · exact hwfall l (List.mem_append_right _ h)
  have hbytes : ¬ writeBackBytes (bigFile.drop 1 ++ [L]) ≤ 4096 := by
    rw [writeBackBytes_append]
    have h1 : writeBackBytes (bigFile.drop 1) = 5247 := by decide
    omega
  have herr : sampleAndRead fsBig k1027 t0 3 = .error .writeFailed := by
    unfold sampleAndRead
    rw [hfile]
    unfold fetchPoints
    rw [scannedLines_of_all hscanall, scanWindow_eq_drop, hdrop, mkPts_ok 0 _ hwfret]
    simp only [exceptBind_ok]
    rw [if_neg hbytes]
  refine ⟨by decide, herr, fun res h => ?_⟩
  rw [herr] at h
  exact Except.noConfusion h

/-- Witness for C10 (amended): a one-line prior history for asset
`"1027"`, sampled price `3`. -/
theorem c10_appended_sample_is_last_point_witness :
    ((∀ l ∈ (fs1 (dataFileName k1027)).getD [], wfLine l = true) ∧
     (∀ l ∈ (fs1 (dataFileName k1027)).getD [], lineBytes l ≤ 65536) ∧
     writeBackBytes
       (((fs1 (dataFileName k1027)).getD [] ++ [formatHour t0 ++ '|' :: fmt2 3]).drop
         (((fs1 (dataFileName k1027)).getD [] ++
           [formatHour t0 ++ '|' :: fmt2 3]).length - 100)) ≤ 4096) ∧
    (∃ pts after q,
      sampleAndRead fs1 k1027 t0 3 = .ok (pts, after) ∧
      pts ≠ [] ∧
      parseFloat (fmt2 3) = some q ∧
      (pts.getLast?).map Pt.y = some q) := by
  have h300 : goRound ((3 : ℚ) * 100) = 300 := by norm_num [goRound]
  have hfmtlen : (fmt2 3).length ≤ 5 := fmt2_length_le (by rw [h300]; decide)
  have hfhlen : (formatHour t0).length = 19 :=
    formatHour_length_small t0 (by decide) (by decide) (by decide) (by decide)
  have hLbytes : lineBytes (formatHour t0 ++ '|' :: fmt2 3) ≤ 101 := by
    have hle := lineBytes_le (formatHour t0 ++ '|' :: fmt2 3)
    rw [List.length_append, List.length_cons, hfhlen] at hle
    omega
  have hgd : (fs1 (dataFileName k1027)).getD [] = ["a|1".data] := rfl
  have hbuf : writeBackBytes
      (((fs1 (dataFileName k1027)).getD [] ++ [formatHour t0 ++ '|' :: fmt2 3]).drop
        (((fs1 (dataFileName k1027)).getD [] ++
          [formatHour t0 ++ '|' :: fmt2 3]).length - 100)) ≤ 4096 := by
    rw [hgd]
    rw [show (["a|1".data] ++ [formatHour t0 ++ '|' :: fmt2 3]).length - 100 = 0 by
      rw [List.length_append]
      rfl]
    rw [List.drop_zero]
    unfold writeBackBytes
    simp only [List.cons_append, List.nil_append, List.map_cons, List.map_nil,
      List.sum_cons, List.sum_nil]
    have h4 : lineBytes "a|1".data = 4 := by decide
    rw [h4]
    omega
  exact ⟨⟨by decide, by decide, hbuf⟩,
    c10_appended_sample_is_last_point fs1 k1027 t0 3 (by decide) (by decide) hbuf⟩

/-! ### The byte-wise string order used by `sort.Strings` -/

theorem strLe_total (a b : List Char) : strLe a b = true ∨ strLe b a = true := by
  induction a generalizing b with
  | nil => left; rfl
  | cons x xs ih =>
    cases b with
    | nil => right; rfl
    | cons y ys =>
      rcases lt_trichotomy x y with h | h | h
      · left
        simp [strLe, h]
      · subst h
        rcases ih ys with h2 | h2
        · left
          simp [strLe, lt_irrefl, h2]
        · right
          simp [strLe, lt_irrefl, h2]
      · right
        simp [strLe, h]

theorem strLe_trans (a b c : List Char) (hab : strLe a b = true)
    (hbc : strLe b c = true) : strLe a c = true := by
  induction a generalizing b c with
  | nil => rfl
  | cons x xs ih =>
    cases b with
    | nil => simp [strLe] at hab
    | cons y ys =>
      cases c with
      | nil => simp [strLe] at hbc
      | cons z zs =>
        simp only [strLe] at hab hbc ⊢
        rcases lt_trichotomy x y with h1 | h1 | h1
        · rcases lt_trichotomy y z with h2 | h2 | h2
          · simp [lt_trans h1 h2]
          · subst h2
            simp [h1]
          · rw [if_neg (lt_asymm h2), if_pos h2] at hbc
            exact absurd hbc (by simp)
        · subst h1
          rcases lt_trichotomy x z with h2 | h2 | h2
          · simp [h2]
          · subst h2
            simp only [lt_irrefl, if_false] at hab hbc ⊢
            exact ih ys zs hab hbc
          · rw [if_neg (lt_asymm h2), if_pos h2] at hbc
            exact absurd hbc (by simp)
        · rw [if_neg (lt_asymm h1), if_pos h1] at hab
          exact absurd hab (by simp)

theorem strLe_antisymm (a b : List Char) (hab : strLe a b = true)
    (hba : strLe b a = true) : a = b := by
  induction a generalizing b with
  | nil =>
    cases b with
    | nil => rfl
    | cons y ys => simp [strLe] at hba
  | cons x xs ih =>
    cases b with
    | nil => simp [strLe] at hab
    | cons y ys =>
      simp only [strLe] at hab hba
      rcases lt_trichotomy x y with h1 | h1 | h1
      · rw [if_neg (lt_asymm h1), if_pos h1] at hba
        exact absurd hba (by simp)
      · subst h1
        simp only [lt_irrefl, if_false] at hab hba
        rw [ih ys hab hba]
      · rw [if_neg (lt_asymm h1), if_pos h1] at hab
        exact absurd hab (by simp)

/-! ### Go map reads are iteration-order independent (distinct keys) -/

theorem lookup_cons {β : Type} (k a : List Char) (b : β)
    (es : List (List Char × β)) :
    ((a, b) :: es).lookup k = if k = a then some b else es.lookup k := by
  by_cases hk : k = a
  · subst hk
    simp [List.lookup]
  · simp [List.lookup, beq_false_of_ne hk, hk]

theorem perm_lookup_eq {β : Type} {l₁ l₂ : List (List Char × β)}
    (hp : l₁.Perm l₂) :
    (l₁.map Prod.fst).Nodup → ∀ k, l₁.lookup k = l₂.lookup k := by
  induction hp with
  | nil => exact fun _ _ => rfl
  | cons x h ih =>
    intro hn k
    obtain ⟨a, b⟩ := x
    simp only [List.map_cons, List.nodup_cons] at hn
    rw [lookup_cons, lookup_cons]
    by_cases hk : k = a
    · simp [hk]
    · rw [if_neg hk, if_neg hk]
      exact ih hn.2 k
  | swap x y l =>
    intro hn k
    obtain ⟨a, b⟩ := x
    obtain ⟨c, d⟩ := y
    simp only [List.map_cons, List.nodup_cons, List.mem_cons] at hn
    have hca : c ≠ a := fun hca => hn.1 (Or.inl hca)
    rw [lookup_cons, lookup_cons, lookup_cons, lookup_cons]
    by_cases h1 : k = c
    · subst h1
      rw [if_pos rfl, if_neg hca, if_pos rfl]
    · by_cases h2 : k = a
      · subst h2
        rw [if_neg h1, if_pos rfl, if_pos rfl]
      · rw [if_neg h1, if_neg h2, if_neg h2, if_neg h1]
  | trans h₁ h₂ ih₁ ih₂ =>
    intro hn k
    exact (ih₁ hn k).trans (ih₂ (((h₁.map Prod.fst).nodup_iff).mp hn) k)

/-! ### Claims about the text variant's cycle -/

/-- C3: on a decoded response with non-zero `errorCode` and an empty data
map, the cycle formats the empty string and completes normally; the
`status` (hence `errorCode`) is never consulted. -/
theorem c3_nonzero_error_empty_data (st : Status) (_h : st.errorCode ≠ 0) :
    textCycleOutput ⟨st, []⟩ = [] ∧
    ∀ st' : Status, textCycleOutput ⟨st', []⟩ = textCycleOutput ⟨st, []⟩ :=
  ⟨rfl, fun _ => rfl⟩

/-- Witness for C3 at a concrete error status. -/
theorem c3_nonzero_error_empty_data_witness :
    stErr.errorCode ≠ 0 ∧ textCycleOutput ⟨stErr, []⟩ = [] :=
  ⟨by decide, (c3_nonzero_error_empty_data stErr (by decide)).1⟩

/-- C6: one cycle's output lists the per-asset blocks in ascending
byte-sorted key order, and depends only on the map's contents, not its
iteration order. -/
theorem c6_sorted_order_independent (resp resp' : Response)
    (hperm : resp.data.Perm resp'.data)
    (hnodup : (resp.data.map Prod.fst).Nodup) :
    textCycleOutput resp = textCycleOutput resp' ∧
    List.Sorted keyLe (sortStrings (resp.data.map Prod.fst)) := by
  haveI : IsTotal (List Char) keyLe := ⟨strLe_total⟩
  haveI : IsTrans (List Char) keyLe := ⟨strLe_trans⟩
  haveI : IsAntisymm (List Char) keyLe := ⟨strLe_antisymm⟩
  constructor
  · have hkeys : (resp.data.map Prod.fst).Perm (resp'.data.map Prod.fst) :=
      hperm.map _
    have hsorted : sortStrings (resp.data.map Prod.fst) =
        sortStrings (resp'.data.map Prod.fst) :=
      List.eq_of_perm_of_sorted
        ((List.perm_insertionSort _ _).trans
          (hkeys.trans (List.perm_insertionSort _ _).symm))
        (List.sorted_insertionSort _ _) (List.sorted_insertionSort _ _)
    unfold textCycleOutput
    rw [hsorted]
    congr 1
    apply List.map_congr_left
    intro k _
    unfold assetBlock dataAt
    rw [perm_lookup_eq hperm hnodup k]
  · exact List.sorted_insertionSort _ _

/-- Witness for C6 on assets keyed `"1027"`, `"5426"`, `"34625"` in two
iteration orders. -/
theorem c6_sorted_order_independent_witness :
    entriesA.Perm entriesB ∧
    (entriesA.map Prod.fst).Nodup ∧
    (textCycleOutput ⟨stErr, entriesA⟩ = textCycleOutput ⟨stErr, entriesB⟩ ∧
     List.Sorted keyLe (sortStrings (entriesA.map Prod.fst))) :=
  ⟨by decide, by decide,
    c6_sorted_order_independent ⟨stErr, entriesA⟩ ⟨stErr, entriesB⟩
      (by decide) (by decide)⟩

/-- The marker chosen for a percentage: green iff strictly positive. -/
theorem marker_iff (v : ℚ) :
    ((if 0 < v then '🟩' else '🟥') = '🟩' ↔ 0 < v) ∧
    ((if 0 < v then '🟩' else '🟥') = '🟥' ↔ ¬ 0 < v) := by
  by_cases h : 0 < v
  · rw [if_pos h]
    exact ⟨⟨fun _ => h, fun _ => rfl⟩,
      ⟨fun hc => absurd hc (by decide), fun hc => absurd h hc⟩⟩
  · rw [if_neg h]
    exact ⟨⟨fun hc => absurd hc (by decide), fun hv => absurd hv h⟩,
      ⟨fun _ => h, fun _ => rfl⟩⟩

/-- C4: `buildPriceString` is the name+price line followed by exactly three
marker-prefixed percentage blocks in the fixed order 1h, 24h, 7d, each of
the form `"marker label:\nvalue%\n"`, then one trailing blank line; a
block carries the green (positive) marker iff its percentage is strictly
greater than zero (zero gets the red marker). -/
theorem c4_format_template (token : List Char) (p a b c : ℚ) :
    ∃ m1 m2 m3 : Char,
      buildPriceString token p a b c =
        token ++ ": ".data ++ fmt2 (roundToPrecision p 2) ++ "\n".data ++
        (m1 :: " 1h:\n".data ++ fmt2 (roundToPrecision a 2) ++ "%\n".data) ++
        (m2 :: " 24h:\n".data ++ fmt2 (roundToPrecision b 2) ++ "%\n".data) ++
        (m3 :: " 7d:\n".data ++ fmt2 (roundToPrecision c 2) ++ "%\n".data) ++
        "\n".data ∧
      ((m1 = '🟩' ↔ 0 < a) ∧ (m1 = '🟥' ↔ ¬ 0 < a)) ∧
      ((m2 = '🟩' ↔ 0 < b) ∧ (m2 = '🟥' ↔ ¬ 0 < b)) ∧
      ((m3 = '🟩' ↔ 0 < c) ∧ (m3 = '🟥' ↔ ¬ 0 < c)) := by
  refine ⟨if 0 < a then '🟩' else '🟥', if 0 < b then '🟩' else '🟥',
    if 0 < c then '🟩' else '🟥', ?_, marker_iff a, marker_iff b, marker_iff c⟩
  unfold buildPriceString
  simp only [gt_iff_lt]
  by_cases h1 : 0 < a <;> by_cases h2 : 0 < b <;> by_cases h3 : 0 < c <;>
    simp only [h1, h2, h3, if_true, if_false]

/-- C7: once the stop signal is pending, the loop runs no further cycles —
every cycle that ran saw no pending signal at its iteration boundary — and
a pending signal at an iteration boundary makes the loop return
immediately, releasing its completion handle. -/
theorem c7_stop_signal_halts (signal : ℕ → Bool) (fuel i k : ℕ)
    (hset : ∀ j, k ≤ j → signal j = true) :
    (∀ j ∈ (pollLoop signal fuel i).1, j < k ∧ signal j = false) ∧
    (signal i = true → pollLoop signal (fuel + 1) i = ([], true)) := by
  constructor
  · induction fuel generalizing i with
    | zero =>
      intro j hj
      simp [pollLoop] at hj
    | succ f ih =>
      intro j hj
      unfold pollLoop at hj
      by_cases hs : signal i = true
      · rw [if_pos hs] at hj
        simp at hj
      · rw [if_neg hs] at hj
        simp only [List.mem_cons] at hj
        rcases hj with rfl | hj
        · refine ⟨?_, by simpa using hs⟩
          by_contra hik
          push_neg at hik
          exact hs (hset _ hik)
        · exact ih (i + 1) j hj
  · intro hs
    unfold pollLoop
    rw [if_pos hs]

/-- Witness for C7: a signal pending from iteration 3 on stops the loop
after cycles 0, 1, 2. -/
theorem c7_stop_signal_halts_witness :
    (∀ j, 3 ≤ j → sig3 j = true) ∧
    (∀ j ∈ (pollLoop sig3 10 0).1, j < 3 ∧ sig3 j = false) ∧
    pollLoop sig3 11 3 = ([], true) ∧
    pollLoop sig3 10 0 = ([0, 1, 2], true) := by
  have hset : ∀ j, 3 ≤ j → sig3 j = true := fun j hj => decide_eq_true hj
  exact ⟨hset, (c7_stop_signal_halts sig3 10 0 3 hset).1,
    (c7_stop_signal_halts sig3 10 3 3 hset).2 (by decide), by decide⟩

end CryptoBot
